import Mathlib

/-!
Verification of the delta-engine core of a zsync client library (Go).

The development shallowly embeds the Go source:
* `chunks.ChunkInfo` becomes the structure `ChunkInfo` (the `Source`
  field, an `io.ReadSeeker` handle, carries no data relevant to the
  verified properties and is omitted).
* `int64` values become `Int`; the file sizes and worker counts that are
  nonnegative by construction are embedded as `Nat` where noted.
* Stateful code becomes explicit state passing; fallible code returns
  `Option` or `Except`.
-/

namespace ZsyncGo

/-- Embedding of `chunks.ChunkInfo` (fields `Size`, `SourceOffset`,
`TargetOffset` of type `int64`; the `Source io.ReadSeeker` handle is not
data and is omitted). -/
structure ChunkInfo where
  size : Int
  sourceOffset : Int
  targetOffset : Int
deriving Repr, DecidableEq

/-- Embedding of `chunks.ChunkChecksum` restricted to the field read by
`createChunks`: `ChunkOffset uint` (a block index, nonnegative). The
weak/strong checksum fields are never inspected by the embedded code. -/
structure ChunkChecksum where
  chunkOffset : Nat
deriving Repr, DecidableEq

/-! ## `createChunks` (zsync.go) -/

/-- Embedding of `ZSync.createChunks`: for each strong match build a chunk
of size `blockSize` at target offset `match.ChunkOffset * blockSize`,
truncating the size to `remoteFileSize - TargetOffset` when the chunk
would run past the end of the remote file.  Emission to the channel
becomes the returned list, in emission order. -/
def createChunks (blockSize remoteFileSize : Int)
    (strongMatches : List ChunkChecksum) (offset : Int) : List ChunkInfo :=
  strongMatches.map (fun m =>
    let newChunk : ChunkInfo :=
      { size := blockSize
        sourceOffset := offset
        targetOffset := (m.chunkOffset : Int) * blockSize }
    if newChunk.targetOffset + newChunk.size > remoteFileSize then
      { newChunk with size := remoteFileSize - newChunk.targetOffset }
    else
      newChunk)

/-! ## `HttpFileSource` (sources/http_file_source.go) -/

/-- The mutable fields of `HttpFileSource` that `Seek` touches. -/
structure HttpFileSource where
  offset : Int
  size : Int
deriving Repr, DecidableEq

/-- Result of `HttpFileSource.Seek`: the returned `int64`, whether an
error was returned, and the state of the receiver afterwards. -/
structure SeekResult where
  ret : Int
  isError : Bool
  st : HttpFileSource
deriving Repr, DecidableEq

/-- Embedding of `HttpFileSource.Seek`: `whence` 0 sets `Offset`,
1 adds to it, 2 sets it to `Size + offset`; the function returns the
`offset` argument (not the resulting position).  Any other `whence`
returns `(-1, error)` and leaves the receiver unchanged. -/
def httpSeek (h : HttpFileSource) (offset : Int) (whence : Int) : SeekResult :=
  if whence = 0 then ⟨offset, false, { h with offset := offset }⟩
  else if whence = 1 then ⟨offset, false, { h with offset := h.offset + offset }⟩
  else if whence = 2 then ⟨offset, false, { h with offset := h.size + offset }⟩
  else ⟨-1, true, h⟩

/-- An HTTP response as seen by `doRangeRequest`: status code, the
`Content-Encoding` header (as a character list) and the body bytes. -/
structure HttpResponse where
  statusCode : Int
  contentEncoding : List Char
  body : List Nat

/-- The error kinds surfaced by `Request` / `doRangeRequest`. -/
inductive HttpError where
  | urlNotFound
  | rangedNotSupported
  | gzipped
  | sizeMismatch (got expected : Int)
deriving Repr, DecidableEq

/-- Embedding of `strings.Contains`: some position of the haystack
starts with the needle. -/
def goContains (hay needle : List Char) : Bool :=
  (List.range (hay.length + 1)).any (fun i => needle.isPrefixOf (hay.drop i))

/-- Embedding of `HttpFileSource.doRangeRequest`.  The network is
abstracted by `transport`, keyed by the inclusive byte bounds written
into the `Range: bytes=start-last` header; the code sends exactly one
request with bounds `(range_start, range_end - 1)`.  Status 404 maps to
the distinguished URL-not-found error, any other non-206 status to
ranged-not-supported, and a `Content-Encoding` containing `gzip` is
rejected; otherwise the body is returned. -/
def doRangeRequest (transport : Int × Int → HttpResponse)
    (rangeStart rangeEnd : Int) : Except HttpError (List Nat) :=
  let resp := transport (rangeStart, rangeEnd - 1)
  if resp.statusCode = 404 then .error .urlNotFound
  else if resp.statusCode ≠ 206 then .error .rangedNotSupported
  else if goContains resp.contentEncoding "gzip".toList then .error .gzipped
  else .ok resp.body

/-- Embedding of `HttpFileSource.Request`: issue the range request for
`[Offset, Offset + size)` and require the body length to equal `size`;
on success the body is the populated cache content. -/
def httpRequest (transport : Int × Int → HttpResponse)
    (offset size : Int) : Except HttpError (List Nat) :=
  match doRangeRequest transport offset (offset + size) with
  | .error e => .error e
  | .ok body =>
      if (body.length : Int) ≠ size then
        .error (.sizeMismatch (body.length : Int) size)
      else
        .ok body

/-! ## Relative URL resolution in `NewZSync` (zsync.go) -/

/-- Embedding of `strings.LastIndex(s, c)` for a single-character needle:
the index of the last occurrence of `c` in `s`, or `-1` when absent.
Go indexes bytes; URLs are embedded as character lists, which agrees on
the ASCII strings involved. -/
def goLastIndex (c : Char) : List Char → Int
  | [] => -1
  | x :: xs =>
      let r := goLastIndex c xs
      if r ≥ 0 then r + 1 else if x = c then 0 else -1

/-- Embedding of the relative-URL branch of `NewZSync`: a control URL
with an `http` or `ftp` prefix is kept; otherwise the zsync file URL is
sliced at the last `/` (`zsyncFileUrl[:baseURL] + "/" + c.URL`).  When
the zsync file URL has no `/` at all, Go slices with bound `-1` and
panics: that case is `none`. -/
def resolveControlUrl (zsyncFileUrl cURL : List Char) : Option (List Char) :=
  if "http".toList.isPrefixOf cURL || "ftp".toList.isPrefixOf cURL then
    some cURL
  else
    let baseURL := goLastIndex '/' zsyncFileUrl
    if baseURL < 0 then none
    else some (zsyncFileUrl.take baseURL.toNat ++ '/' :: cURL)

/-! ## Worker ranges of `SearchReusableChunks` (zsync.go) -/

/-- Embedding of the worker-range computation in `SearchReusableChunks`:
`nChunks` is the block count rounded up, `nWorkers` is `NumCPU` capped
at `nChunks`, each worker `i` gets the byte range
`[nChunksPerWorker*blockSize*i, …+nChunksPerWorker*blockSize)` with the
end capped at `inputSize`.  The `int64` values involved are nonnegative
(file size, CPU count), so they are embedded as `Nat`.  Go panics with a
division by zero when `blockSize = 0` or when `nWorkers = 0` (empty
input file); those cases are `none`. -/
def searchWorkerRanges (numCPU blockSize inputSize : Nat) :
    Option (List (Nat × Nat)) :=
  if blockSize = 0 then none
  else
    let nChunks0 := inputSize / blockSize
    let nChunks := if nChunks0 * blockSize < inputSize then nChunks0 + 1 else nChunks0
    let nWorkers := if numCPU > nChunks then nChunks else numCPU
    if nWorkers = 0 then none
    else
      let nChunksPerWorker := nChunks / nWorkers
      some ((List.range nWorkers).map (fun i =>
        let b := nChunksPerWorker * blockSize * i
        let e := b + nChunksPerWorker * blockSize
        (b, if e > inputSize then inputSize else e)))

/-! ## `WriteChunk` (zsync.go) -/

/-- Embedding of an `os`-style seek to an absolute position: seeking to
a negative offset fails, any nonnegative position succeeds. -/
def goFileSeek (pos : Int) : Option Int :=
  if pos < 0 then none else some pos

/-- Embedding of `ZSync.WriteChunk`.  The source is a byte list (reads
past its end hit EOF), the target a total byte map over offsets.  The
code seeks both handles, `io.CopyN`s `chunk.Size` bytes (delivering
`n = max 0 (min chunk.Size (len - sourceOffset))` bytes before EOF), and
when the copy ends in short EOF pads the remaining `chunk.Size - n`
target bytes with zeros.  In this pure model the only failures are the
seek failures (negative offsets), embedded as `none`. -/
def WriteChunk (source : List Nat) (target : Int → Nat) (chunk : ChunkInfo) :
    Option (Int → Nat) :=
  match goFileSeek chunk.sourceOffset, goFileSeek chunk.targetOffset with
  | some sp, some tp =>
      let n : Int := max 0 (min chunk.size ((source.length : Int) - sp))
      let afterCopy : Int → Nat := fun i =>
        if tp ≤ i ∧ i < tp + n then source.getD (sp + (i - tp)).toNat 0 else target i
      if n < chunk.size then
        some (fun i => if tp + n ≤ i ∧ i < tp + chunk.size then 0 else afterCopy i)
      else some afterCopy
  | _, _ => none

/-! ## Sliding-window loop of `searchReusableChunksAsync` (zsync.go) -/

/-- Embedding of the sliding-window loop of `searchReusableChunksAsync`.
The window contents at loop offset `off` are the file bytes
`[off, off+blockSize)`, so the probes are abstracted as functions of
`off`: `readErr off` models a failure of `consumeBytes` (which breaks
the loop), `weakHit off` models `FindWeakChecksum2 ≠ nil`, and
`strongHit off` the result of `FindStrongChecksum2` on those weak
matches.  The channel becomes the returned list.  `fuel` bounds the
number of iterations (the Go loop terminates because every step
advances `off` by at least 1 when `blockSize ≥ 1`). -/
def scanWorkerLoop (blockSize remoteFileSize endOff : Int)
    (readErr weakHit : Int → Bool)
    (strongHit : Int → Option (List ChunkChecksum)) :
    Nat → Int → List ChunkInfo
  | 0, _ => []
  | fuel + 1, off =>
    if off < endOff then
      if readErr off then []
      else if weakHit off then
        match strongHit off with
        | some ms =>
            createChunks blockSize remoteFileSize ms off ++
              scanWorkerLoop blockSize remoteFileSize endOff readErr weakHit
                strongHit fuel (off + blockSize)
        | none =>
            scanWorkerLoop blockSize remoteFileSize endOff readErr weakHit
              strongHit fuel (off + 1)
      else
        scanWorkerLoop blockSize remoteFileSize endOff readErr weakHit
          strongHit fuel (off + 1)
    else []

/-! ## `ChunksMapper` (chunksmapper/chunksmapper.go) -/

/-- Embedding of `ChunksMapper`: the Go `map[int64]chunks.ChunkInfo`
keyed by `TargetOffset` is embedded as a list of its values with
distinct target offsets, newest entry first. -/
structure ChunksMapper where
  fileSize : Int
  chunksMap : List ChunkInfo
deriving Repr, DecidableEq

/-- Embedding of `NewFileChunksMapper`. -/
def NewFileChunksMapper (fileSize : Int) : ChunksMapper :=
  { fileSize := fileSize, chunksMap := [] }

/-- Embedding of `ChunksMapper.Add`: `mapper.chunksMap[chunk.TargetOffset]
= chunk`, i.e. any previous entry with the same target offset is
replaced. -/
def ChunksMapper.Add (m : ChunksMapper) (chunk : ChunkInfo) : ChunksMapper :=
  { m with chunksMap :=
      chunk :: m.chunksMap.filter (fun c => c.targetOffset ≠ chunk.targetOffset) }

/-- Insertion step of the sort used to embed `sort.SliceStable` by
`TargetOffset`. -/
def insertByTarget (c : ChunkInfo) : List ChunkInfo → List ChunkInfo
  | [] => [c]
  | d :: l =>
      if c.targetOffset ≤ d.targetOffset then c :: d :: l
      else d :: insertByTarget c l

/-- Sorting by `TargetOffset`, embedding `sort.SliceStable` in
`GetMappedChunks`.  The Go map is iterated in unspecified order before
sorting; since the map keys (the target offsets) are distinct, the
sorted result does not depend on that order. -/
def sortByTarget : List ChunkInfo → List ChunkInfo
  | [] => []
  | c :: l => insertByTarget c (sortByTarget l)

/-- Embedding of `ChunksMapper.GetMappedChunks`: the map values sorted
ascending by `TargetOffset`. -/
def ChunksMapper.GetMappedChunks (m : ChunksMapper) : List ChunkInfo :=
  sortByTarget m.chunksMap

/-- Loop of `GetMissingChunks`: walk the sorted mapped chunks tracking
`pastChunkEnd`; emit a gap chunk (with `SourceOffset = TargetOffset =
pastChunkEnd`) before every mapped chunk that does not start at
`pastChunkEnd`, and a final gap up to `fileSize`. -/
def missingAux (fileSize : Int) : Int → List ChunkInfo → List ChunkInfo
  | pastEnd, [] =>
      if pastEnd ≠ fileSize then
        [{ size := fileSize - pastEnd, sourceOffset := pastEnd, targetOffset := pastEnd }]
      else []
  | pastEnd, c :: l =>
      if pastEnd ≠ c.targetOffset then
        { size := c.targetOffset - pastEnd, sourceOffset := pastEnd, targetOffset := pastEnd } ::
          missingAux fileSize (c.targetOffset + c.size) l
      else missingAux fileSize (c.targetOffset + c.size) l

/-- Embedding of `ChunksMapper.GetMissingChunks`. -/
def ChunksMapper.GetMissingChunks (m : ChunksMapper) : List ChunkInfo :=
  missingAux m.fileSize 0 m.GetMappedChunks

/-- Sorted merge of two chunk lists by `TargetOffset` (ties favour the
first list); this is the merge of `GetMappedChunks` and
`GetMissingChunks` into one target-ordered plan. -/
def mergeByTarget : List ChunkInfo → List ChunkInfo → List ChunkInfo
  | [], ys => ys
  | x :: xs, [] => x :: xs
  | x :: xs, y :: ys =>
      if x.targetOffset ≤ y.targetOffset then x :: mergeByTarget xs (y :: ys)
      else y :: mergeByTarget (x :: xs) ys
termination_by xs ys => xs.length + ys.length

/-! ## `OptimizeChunks` (chunksmapper/chunksmapper.go)

The Go function walks `chunkList` with indices `i` (outer) and `n ≥ i`
(inner) over the immutable input slice, plus a `skipList` map of
already-merged indices.  The embedding pairs each chunk with its skip
flag; the inner loop threads the running `end` through the suffix
starting at the current element, and the outer loop emits the current
chunk with `Size = end - SourceOffset` (the net effect of the repeated
`chunk.Size = end - chunk.SourceOffset` assignments, which also covers
the merge of the chunk with itself at `n = i`). -/

/-- Inner loop of `OptimizeChunks` over the suffix from the current
index: returns the final `end` value and the suffix with updated skip
flags. -/
def optInner (minGap : Int) : Int → List (ChunkInfo × Bool) → Int × List (ChunkInfo × Bool)
  | e, [] => (e, [])
  | e, (c, skipped) :: l =>
      if skipped then
        let p := optInner minGap e l
        (p.1, (c, true) :: p.2)
      else
        let nextEnd := c.sourceOffset + c.size
        if e + minGap > c.sourceOffset then
          let p := optInner minGap nextEnd l
          (p.1, (c, true) :: p.2)
        else
          let p := optInner minGap e l
          (p.1, (c, false) :: p.2)

theorem optInner_length (minGap e : Int) (l : List (ChunkInfo × Bool)) :
    (optInner minGap e l).2.length = l.length := by
  induction l generalizing e with
  | nil => rfl
  | cons x l ih =>
      obtain ⟨c, skipped⟩ := x
      by_cases hs : skipped
      · simp [optInner, hs, ih]
      · simp only [optInner, hs, Bool.false_eq_true, if_false]
        split <;> simp [ih]

/-- Outer loop of `OptimizeChunks`: skip merged entries, otherwise run
the inner loop from the current element and emit the current chunk with
its size extended to the final `end`. -/
def optOuter (minGap : Int) : List (ChunkInfo × Bool) → List ChunkInfo
  | [] => []
  | (_, true) :: l => optOuter minGap l
  | (c, false) :: l =>
      let p := optInner minGap (c.sourceOffset + c.size) ((c, false) :: l)
      { c with size := p.1 - c.sourceOffset } :: optOuter minGap p.2.tail
termination_by l => l.length
decreasing_by
  all_goals first
    | (rw [List.length_tail, optInner_length]; simp)
    | simp

/-- Embedding of `ChunksMapper.OptimizeChunks` (the receiver is unused
by the Go function). -/
def OptimizeChunks (chunkList : List ChunkInfo) (minGap : Int) : List ChunkInfo :=
  optOuter minGap (chunkList.map (fun c => (c, false)))

/-- Modelled from the spec (planner pass 2, for comparison with
`OptimizeChunks`): starting from the current fetch chunk, repeatedly
merge the next chunk while `next_fetch.begin - current_fetch.end <
min_gap`, extending the current end to the merged chunk's end; returns
the final end and the unconsumed suffix. -/
def specMergeRun (minGap : Int) : Int → List ChunkInfo → Int × List ChunkInfo
  | e, [] => (e, [])
  | e, c :: l =>
      if c.sourceOffset - e < minGap then specMergeRun minGap (c.sourceOffset + c.size) l
      else (e, c :: l)

theorem specMergeRun_length_le (minGap e : Int) (l : List ChunkInfo) :
    (specMergeRun minGap e l).2.length ≤ l.length := by
  induction l generalizing e with
  | nil => simp [specMergeRun]
  | cons c l ih =>
      simp only [specMergeRun]
      split
      · exact le_trans (ih _) (Nat.le_succ _)
      · simp

/-- Modelled from the spec (planner pass 2, for comparison with
`OptimizeChunks`): process the sorted list, merging each run of nearby
chunks into its first chunk. -/
def specMergePass (minGap : Int) : List ChunkInfo → List ChunkInfo
  | [] => []
  | c :: l =>
      let p := specMergeRun minGap (c.sourceOffset + c.size) l
      { c with size := p.1 - c.sourceOffset } :: specMergePass minGap p.2
termination_by l => l.length
decreasing_by
  exact Nat.lt_succ_of_le (specMergeRun_length_le _ _ _)

/-! ## Theorems -/

/-- C9: for whence values 0, 1, 2, `HttpFileSource.Seek` sets the
logical offset to `offset`, `Offset + offset`, `Size + offset`
respectively while returning the `offset` argument itself (not the
resulting absolute position); any other whence value returns `(-1,
error)` and leaves the receiver unchanged. -/
theorem httpSeek_spec (h : HttpFileSource) (offset whence : Int) :
    (whence = 0 →
      httpSeek h offset whence = ⟨offset, false, { h with offset := offset }⟩) ∧
    (whence = 1 →
      httpSeek h offset whence = ⟨offset, false, { h with offset := h.offset + offset }⟩) ∧
    (whence = 2 →
      httpSeek h offset whence = ⟨offset, false, { h with offset := h.size + offset }⟩) ∧
    (whence ≠ 0 → whence ≠ 1 → whence ≠ 2 →
      httpSeek h offset whence = ⟨-1, true, h⟩) := by
  refine ⟨fun h0 => ?_, fun h1 => ?_, fun h2 => ?_, fun h0 h1 h2 => ?_⟩
  · simp [httpSeek, h0]
  · simp [httpSeek, h1]
  · simp [httpSeek, h2]
  · simp [httpSeek, h0, h1, h2]

/-- C9 witness: concrete seeks with whence 1 (relative, note the return
value 7 is the argument, not the new offset 12) and whence 9 (error). -/
theorem httpSeek_spec_witness :
    httpSeek ⟨5, 100⟩ 7 1 = ⟨7, false, ⟨12, 100⟩⟩ ∧
    httpSeek ⟨5, 100⟩ 7 9 = ⟨-1, true, ⟨5, 100⟩⟩ :=
  ⟨(httpSeek_spec ⟨5, 100⟩ 7 1).2.1 rfl,
   (httpSeek_spec ⟨5, 100⟩ 7 9).2.2.2 (by decide) (by decide) (by decide)⟩

/-- C5: every chunk emitted by `createChunks` has size `blockSize`,
except that a chunk whose target offset plus `blockSize` exceeds the
remote file size has its size truncated to `remoteFileSize -
TargetOffset`; in both cases `TargetOffset + Size ≤ remoteFileSize`. -/
theorem createChunks_size_spec (bs R off : Int) (ms : List ChunkChecksum)
    (c : ChunkInfo) (hc : c ∈ createChunks bs R ms off) :
    (c.size = bs ∧ c.targetOffset + c.size ≤ R ∨
      c.targetOffset + bs > R ∧ c.size = R - c.targetOffset) ∧
    c.targetOffset + c.size ≤ R := by
  simp only [createChunks, List.mem_map] at hc
  obtain ⟨m, -, rfl⟩ := hc
  split
  next hgt =>
    refine ⟨Or.inr ⟨?_, rfl⟩, ?_⟩
    · simpa using hgt
    · dsimp only
      omega
  next hle =>
    replace hle := not_lt.mp (by simpa using hle)
    exact ⟨Or.inl ⟨rfl, by simpa using hle⟩, by simpa using hle⟩

/-- C5 witness: `blockSize = 16`, remote size 70, matches at block
indices 1 and 4 (the latter truncated to 6 bytes). -/
theorem createChunks_size_spec_witness :
    (⟨6, 3, 64⟩ : ChunkInfo) ∈ createChunks 16 70 [⟨1⟩, ⟨4⟩] 3 ∧
    (((⟨6, 3, 64⟩ : ChunkInfo).size = 16 ∧
        (⟨6, 3, 64⟩ : ChunkInfo).targetOffset + (⟨6, 3, 64⟩ : ChunkInfo).size ≤ 70 ∨
      (⟨6, 3, 64⟩ : ChunkInfo).targetOffset + 16 > 70 ∧
        (⟨6, 3, 64⟩ : ChunkInfo).size = 70 - (⟨6, 3, 64⟩ : ChunkInfo).targetOffset) ∧
      (⟨6, 3, 64⟩ : ChunkInfo).targetOffset + (⟨6, 3, 64⟩ : ChunkInfo).size ≤ 70) :=
  ⟨by decide, createChunks_size_spec 16 70 3 [⟨1⟩, ⟨4⟩] ⟨6, 3, 64⟩ (by decide)⟩

/-- C7: `Request(size)` issues exactly one ranged GET, keyed by the
header bounds `bytes=offset-(offset+size-1)`, and succeeds iff the
status is 206, the `Content-Encoding` does not contain `gzip`, and the
body length equals `size`; a 404 yields the distinguished URL-not-found
error, any other non-206 status the ranged-not-supported error, and a
body length different from `size` the size-mismatch error.  The final
conjunct states that the result depends on the transport only through
that single request. -/
theorem httpRequest_spec (transport : Int × Int → HttpResponse) (offset size : Int) :
    ((∃ body, httpRequest transport offset size = .ok body) ↔
      ((transport (offset, offset + size - 1)).statusCode = 206 ∧
        goContains (transport (offset, offset + size - 1)).contentEncoding
          "gzip".toList = false ∧
        ((transport (offset, offset + size - 1)).body.length : Int) = size)) ∧
    ((transport (offset, offset + size - 1)).statusCode = 404 →
      httpRequest transport offset size = .error .urlNotFound) ∧
    ((transport (offset, offset + size - 1)).statusCode ≠ 404 →
      (transport (offset, offset + size - 1)).statusCode ≠ 206 →
      httpRequest transport offset size = .error .rangedNotSupported) ∧
    ((transport (offset, offset + size - 1)).statusCode = 206 →
      goContains (transport (offset, offset + size - 1)).contentEncoding
        "gzip".toList = false →
      ((transport (offset, offset + size - 1)).body.length : Int) ≠ size →
      httpRequest transport offset size =
        .error (.sizeMismatch ((transport (offset, offset + size - 1)).body.length : Int) size)) ∧
    (∀ transport2 : Int × Int → HttpResponse,
      transport2 (offset, offset + size - 1) = transport (offset, offset + size - 1) →
      httpRequest transport2 offset size = httpRequest transport offset size) := by
  refine ⟨?_, ?_, ?_, ?_, ?_⟩
  · by_cases h404 : (transport (offset, offset + size - 1)).statusCode = 404 <;>
      by_cases h206 : (transport (offset, offset + size - 1)).statusCode = 206 <;>
      by_cases hgz : goContains (transport (offset, offset + size - 1)).contentEncoding
        ['g', 'z', 'i', 'p'] = true <;>
      by_cases hlen : ((transport (offset, offset + size - 1)).body.length : Int) = size <;>
      simp [httpRequest, doRangeRequest, h404, h206, hgz, hlen]
  · intro h404
    simp [httpRequest, doRangeRequest, h404]
  · intro h404 h206
    simp [httpRequest, doRangeRequest, h404, h206]
  · intro h206 hgz hlen
    have h404 : (transport (offset, offset + size - 1)).statusCode ≠ 404 := by
      rw [h206]; decide
    have hgz2 : goContains (transport (offset, offset + size - 1)).contentEncoding
        ['g', 'z', 'i', 'p'] = false := hgz
    simp [httpRequest, doRangeRequest, h404, h206, hgz2, hlen]
  · intro transport2 hsame
    simp only [httpRequest, doRangeRequest]
    rw [hsame]

/-- C7 witness: a 404 response yields the URL-not-found error, and a 206
response with matching body length succeeds. -/
theorem httpRequest_spec_witness :
    httpRequest (fun _ => ⟨404, [], []⟩) 10 3 = .error .urlNotFound ∧
    (∃ body, httpRequest (fun _ => ⟨206, [], [1, 2, 3]⟩) 10 3 = .ok body) :=
  ⟨(httpRequest_spec (fun _ => ⟨404, [], []⟩) 10 3).2.1 rfl,
   (httpRequest_spec (fun _ => ⟨206, [], [1, 2, 3]⟩) 10 3).1.mpr ⟨rfl, by decide, by decide⟩⟩

theorem goLastIndex_eq_neg_one (c : Char) (s : List Char) (h : c ∉ s) :
    goLastIndex c s = -1 := by
  induction s with
  | nil => rfl
  | cons x xs ih =>
      simp only [List.mem_cons, not_or] at h
      simp only [goLastIndex, ih h.2]
      norm_num [Ne.symm h.1]

theorem goLastIndex_spec (c : Char) (s : List Char) (h : c ∈ s) :
    ∃ a b : List Char, s = a ++ c :: b ∧ c ∉ b ∧ goLastIndex c s = a.length := by
  induction s with
  | nil => cases h
  | cons x xs ih =>
      by_cases hm : c ∈ xs
      · obtain ⟨a, b, hab, hnb, hval⟩ := ih hm
        refine ⟨x :: a, b, by simp [hab], hnb, ?_⟩
        simp only [goLastIndex, hval]
        rw [if_pos (by omega)]
        simp only [List.length_cons]
        push_cast
        ring
      · have hx : c = x := (List.mem_cons.mp h).resolve_right hm
        refine ⟨[], xs, by simp [hx], hm, ?_⟩
        simp only [goLastIndex, goLastIndex_eq_neg_one c xs hm]
        norm_num [hx]

/-- C8: a control URL starting with `http` or `ftp` is left unchanged;
any other control URL is resolved against the zsync control file's URL
by replacing that URL's last path segment — the result is the control
file URL truncated at its last `/`, followed by `/`, followed by the
relative URL. -/
theorem resolveControlUrl_spec (zsyncFileUrl cURL : List Char)
    (hslash : '/' ∈ zsyncFileUrl) :
    (("http".toList.isPrefixOf cURL || "ftp".toList.isPrefixOf cURL) = true →
      resolveControlUrl zsyncFileUrl cURL = some cURL) ∧
    (("http".toList.isPrefixOf cURL || "ftp".toList.isPrefixOf cURL) = false →
      ∃ a b : List Char, zsyncFileUrl = a ++ '/' :: b ∧ '/' ∉ b ∧
        resolveControlUrl zsyncFileUrl cURL = some (a ++ '/' :: cURL)) := by
  constructor
  · intro hp
    simp only [resolveControlUrl]
    rw [if_pos hp]
  · intro hp
    obtain ⟨a, b, hab, hnb, hval⟩ := goLastIndex_spec '/' zsyncFileUrl hslash
    refine ⟨a, b, hab, hnb, ?_⟩
    simp only [resolveControlUrl, hp, Bool.false_eq_true, if_false]
    rw [hval, if_neg (by omega), Int.toNat_natCast, hab, List.take_left]

/-- C8 witness: resolving `file` against a concrete zsync URL replaces
the last path segment. -/
theorem resolveControlUrl_spec_witness :
    '/' ∈ "http://host/dir/file.zsync".toList ∧
    (∃ a b : List Char, "http://host/dir/file.zsync".toList = a ++ '/' :: b ∧ '/' ∉ b ∧
      resolveControlUrl "http://host/dir/file.zsync".toList "file".toList =
        some (a ++ '/' :: "file".toList)) :=
  ⟨by decide,
   (resolveControlUrl_spec "http://host/dir/file.zsync".toList "file".toList
      (by decide)).2 (by decide)⟩

/-- C3 counterexample: with `NumCPU = 2`, `block_size = 16` and a local
file of 80 bytes the code builds 2 worker ranges `[0,32)` and `[32,64)`
whose union misses offset 64 (< 80), so the ranges do not cover the
local file; with 17 bytes the worker count is 2, not
`min(NumCPU, floor(17/16)) = 1`; and for an empty local file the code
divides by zero (`none`) instead of using at least one worker. -/
theorem searchWorkerRanges_counterexample :
    searchWorkerRanges 2 16 80 = some [(0, 32), (32, 64)] ∧
    (∀ r ∈ [((0 : Nat), (32 : Nat)), (32, 64)], ¬(r.1 ≤ 64 ∧ 64 < r.2)) ∧
    (64 : Nat) < 80 ∧
    searchWorkerRanges 2 16 17 = some [(0, 16), (16, 17)] ∧
    [((0 : Nat), (16 : Nat)), (16, 17)].length ≠ min 2 (17 / 16) ∧
    searchWorkerRanges 2 16 0 = none := by
  decide

theorem goCapMin (e sz : ℕ) : (if e > sz then sz else e) = min e sz := by
  rcases le_or_lt e sz with h | h
  · rw [if_neg (by omega), Nat.min_def, if_pos h]
  · rw [if_pos h, Nat.min_def, if_neg (by omega)]

/-- C3 amended: for a nonempty local file (and `NumCPU ≥ 1`,
`block_size ≥ 1`) the file is split into `W = min(NumCPU,
ceil(local_size / block_size))` contiguous ranges, `W ≥ 1`, where
worker `i` gets `[cpw·bs·i, min(cpw·bs·(i+1), local_size))` with
`cpw = nChunks / W`; the union of the ranges is
`[0, min(cpw·bs·W, local_size))` — which covers the whole file only
when `W` divides `nChunks` evenly, not in general. -/
theorem searchWorkerRanges_amended (numCPU blockSize inputSize nChunks w cpw : ℕ)
    (hcpu : 1 ≤ numCPU) (hbs : 1 ≤ blockSize) (hsz : 1 ≤ inputSize)
    (hnc : nChunks = inputSize / blockSize + if inputSize % blockSize = 0 then 0 else 1)
    (hw : w = min numCPU nChunks)
    (hcpw : cpw = nChunks / w) :
    ∃ ranges : List (ℕ × ℕ),
      searchWorkerRanges numCPU blockSize inputSize = some ranges ∧
      ranges.length = w ∧ 1 ≤ w ∧
      ranges = (List.range w).map
        (fun i => (cpw * blockSize * i, min (cpw * blockSize * (i + 1)) inputSize)) ∧
      (∀ x : ℕ, (∃ r ∈ ranges, r.1 ≤ x ∧ x < r.2) ↔
        x < min (cpw * blockSize * w) inputSize) := by
  have hbs0 : blockSize ≠ 0 := by omega
  have hceil : (if inputSize / blockSize * blockSize < inputSize
      then inputSize / blockSize + 1 else inputSize / blockSize) = nChunks := by
    by_cases hz : inputSize % blockSize = 0
    · have hdvd : blockSize ∣ inputSize := Nat.dvd_of_mod_eq_zero hz
      rw [Nat.div_mul_cancel hdvd, if_neg (lt_irrefl _), hnc, if_pos hz]
      exact (Nat.add_zero _).symm
    · have hle : inputSize / blockSize * blockSize ≤ inputSize := Nat.div_mul_le_self _ _
      have hne : inputSize / blockSize * blockSize ≠ inputSize := by
        intro he
        exact hz (by rw [← he]; exact Nat.mul_mod_left _ _)
      rw [if_pos (lt_of_le_of_ne hle hne), hnc, if_neg hz]
  have hnc1 : 1 ≤ nChunks := by
    by_cases hz : inputSize % blockSize = 0
    · have hdvd : blockSize ∣ inputSize := Nat.dvd_of_mod_eq_zero hz
      have h1 : blockSize ≤ inputSize := Nat.le_of_dvd (by omega) hdvd
      have h2 : 1 ≤ inputSize / blockSize := (Nat.one_le_div_iff (by omega)).mpr h1
      rw [hnc, if_pos hz]
      simpa using h2
    · rw [hnc, if_neg hz]
      exact Nat.le_add_left 1 _
  have hw1 : 1 ≤ w := by rw [hw]; omega
  have hwle : w ≤ nChunks := by rw [hw]; omega
  have hcpw1 : 1 ≤ cpw := by
    rw [hcpw]
    exact (Nat.one_le_div_iff (by omega)).mpr hwle
  have hmin : (if numCPU > nChunks then nChunks else numCPU) = w := by
    rw [hw]
    split <;> omega
  refine ⟨(List.range w).map
      (fun i => (cpw * blockSize * i, min (cpw * blockSize * (i + 1)) inputSize)),
      ?_, by simp, hw1, rfl, ?_⟩
  · simp only [searchWorkerRanges, hbs0, if_false]
    rw [hceil, hmin, if_neg (by omega), ← hcpw]
    refine congrArg some (congrArg (fun f => List.map f (List.range w)) (funext fun i => ?_))
    rw [goCapMin, Nat.mul_add, Nat.mul_one]
  · intro x
    simp only [List.mem_map, List.mem_range]
    have hc : 0 < cpw * blockSize := by
      have := Nat.mul_le_mul hcpw1 hbs
      omega
    constructor
    · rintro ⟨r, ⟨i, hi, rfl⟩, h1, h2⟩
      dsimp at h1 h2
      have h2sz : x < inputSize := lt_of_lt_of_le h2 (min_le_right _ _)
      have h2c : x < cpw * blockSize * (i + 1) := lt_of_lt_of_le h2 (min_le_left _ _)
      have hle : cpw * blockSize * (i + 1) ≤ cpw * blockSize * w :=
        Nat.mul_le_mul_left _ hi
      exact lt_min (lt_of_lt_of_le h2c hle) h2sz
    · intro hx
      have hxc : x < cpw * blockSize * w := lt_of_lt_of_le hx (min_le_left _ _)
      have hxsz : x < inputSize := lt_of_lt_of_le hx (min_le_right _ _)
      refine ⟨_, ⟨x / (cpw * blockSize), Nat.div_lt_of_lt_mul hxc, rfl⟩,
        Nat.mul_div_le x (cpw * blockSize), ?_⟩
      refine lt_min ?_ hxsz
      rw [Nat.mul_add, Nat.mul_one]
      have hdm := Nat.div_add_mod x (cpw * blockSize)
      have hmod := Nat.mod_lt x hc
      omega

/-- C3 amended witness: 4 CPUs, block size 16, a 64-byte file: four
ranges of one block each, covering `[0, 64)` exactly. -/
theorem searchWorkerRanges_amended_witness :
    searchWorkerRanges 4 16 64 = some [(0, 16), (16, 32), (32, 48), (48, 64)] ∧
    (∀ x : ℕ, (∃ r ∈ [((0 : ℕ), (16 : ℕ)), (16, 32), (32, 48), (48, 64)],
        r.1 ≤ x ∧ x < r.2) ↔ x < min (1 * 16 * 4) 64) := by
  obtain ⟨ranges, h1, h2, h3, h4, h5⟩ :=
    searchWorkerRanges_amended 4 16 64 4 4 1 (by decide) (by decide) (by decide)
      (by decide) (by decide) (by decide)
  have hr : ranges = [(0, 16), (16, 32), (32, 48), (48, 64)] := by
    rw [h4]; decide
  rw [hr] at h1 h5
  exact ⟨h1, h5⟩

/-- C6: with nonnegative offsets and size, `WriteChunk` succeeds and
writes exactly `chunk.Size` bytes at `chunk.TargetOffset` of the
target: the first `n = max 0 (min Size (len - SourceOffset))` bytes are
the source bytes starting at `chunk.SourceOffset`, the remaining
`Size - n` bytes (present exactly when the source read ends in short
EOF) are zeros, and every other target byte is unchanged.  A negative
source or target offset (the seek failures expressible in this pure
model) is returned as an error. -/
theorem WriteChunk_spec (source : List ℕ) (target : Int → ℕ) (chunk : ChunkInfo) :
    (0 ≤ chunk.sourceOffset → 0 ≤ chunk.targetOffset → 0 ≤ chunk.size →
      ∃ out, WriteChunk source target chunk = some out ∧
        (∀ i : Int, chunk.targetOffset ≤ i →
          i < chunk.targetOffset +
            max 0 (min chunk.size ((source.length : Int) - chunk.sourceOffset)) →
          out i = source.getD (chunk.sourceOffset + (i - chunk.targetOffset)).toNat 0) ∧
        (∀ i : Int, chunk.targetOffset +
            max 0 (min chunk.size ((source.length : Int) - chunk.sourceOffset)) ≤ i →
          i < chunk.targetOffset + chunk.size → out i = 0) ∧
        (∀ i : Int, i < chunk.targetOffset ∨ chunk.targetOffset + chunk.size ≤ i →
          out i = target i)) ∧
    (chunk.sourceOffset < 0 ∨ chunk.targetOffset < 0 →
      WriteChunk source target chunk = none) := by
  constructor
  · intro hs ht hz
    simp only [WriteChunk, goFileSeek, if_neg (not_lt.mpr hs), if_neg (not_lt.mpr ht)]
    have hn0 : 0 ≤ max 0 (min chunk.size ((source.length : Int) - chunk.sourceOffset)) :=
      le_max_left _ _
    have hns : max 0 (min chunk.size ((source.length : Int) - chunk.sourceOffset)) ≤
        chunk.size := by omega
    by_cases hlt : max 0 (min chunk.size ((source.length : Int) - chunk.sourceOffset)) <
        chunk.size
    · rw [if_pos hlt]
      refine ⟨_, rfl, ?_, ?_, ?_⟩
      · intro i h1 h2
        rw [if_neg (by omega), if_pos (by exact ⟨h1, by omega⟩)]
      · intro i h1 h2
        rw [if_pos ⟨h1, h2⟩]
      · intro i hi
        rw [if_neg (by omega), if_neg (by omega)]
    · rw [if_neg hlt]
      refine ⟨_, rfl, ?_, ?_, ?_⟩
      · intro i h1 h2
        rw [if_pos ⟨h1, by omega⟩]
      · intro i h1 h2
        exact absurd (lt_of_le_of_lt h1 h2) (by omega)
      · intro i hi
        rw [if_neg (by omega)]
  · intro h
    rcases h with h | h
    · by_cases h2 : chunk.targetOffset < 0 <;>
        simp [WriteChunk, goFileSeek, h, h2]
    · by_cases h2 : chunk.sourceOffset < 0 <;>
        simp [WriteChunk, goFileSeek, h, h2]

/-- C6 witness: source `[10, 20, 30]`, chunk of size 4 reading from
source offset 1 (so only 2 bytes are available and the copy ends in
short EOF) writing at target offset 100. -/
theorem WriteChunk_spec_witness :
    ∃ out, WriteChunk [10, 20, 30] (fun _ => 7) ⟨4, 1, 100⟩ = some out ∧
      (∀ i : Int, (⟨4, 1, 100⟩ : ChunkInfo).targetOffset ≤ i →
        i < (⟨4, 1, 100⟩ : ChunkInfo).targetOffset +
          max 0 (min (⟨4, 1, 100⟩ : ChunkInfo).size
            ((([10, 20, 30] : List ℕ).length : Int) - (⟨4, 1, 100⟩ : ChunkInfo).sourceOffset)) →
        out i = [10, 20, 30].getD
          ((⟨4, 1, 100⟩ : ChunkInfo).sourceOffset +
            (i - (⟨4, 1, 100⟩ : ChunkInfo).targetOffset)).toNat 0) ∧
      (∀ i : Int, (⟨4, 1, 100⟩ : ChunkInfo).targetOffset +
          max 0 (min (⟨4, 1, 100⟩ : ChunkInfo).size
            ((([10, 20, 30] : List ℕ).length : Int) - (⟨4, 1, 100⟩ : ChunkInfo).sourceOffset)) ≤ i →
        i < (⟨4, 1, 100⟩ : ChunkInfo).targetOffset + (⟨4, 1, 100⟩ : ChunkInfo).size →
        out i = 0) ∧
      (∀ i : Int, i < (⟨4, 1, 100⟩ : ChunkInfo).targetOffset ∨
          (⟨4, 1, 100⟩ : ChunkInfo).targetOffset + (⟨4, 1, 100⟩ : ChunkInfo).size ≤ i →
        out i = (fun _ => 7) i) :=
  (WriteChunk_spec [10, 20, 30] (fun _ => 7) ⟨4, 1, 100⟩).1
    (by decide) (by decide) (by decide)

/-- C4: one iteration of the sliding-window loop.  When the read
succeeds and the weak probe misses, or the weak probe hits but the
strong probe misses, the window advances by exactly 1 byte; when the
strong probe hits with matches `ms`, one chunk per matched block is
emitted at the current source offset (`createChunks` emits `ms.length`
chunks, all with `SourceOffset = off`) and the window advances by
exactly `blockSize` bytes. -/
theorem scanWorkerLoop_step (bs R endOff : Int) (readErr weakHit : Int → Bool)
    (strongHit : Int → Option (List ChunkChecksum)) (fuel : ℕ) (off : Int)
    (hlt : off < endOff) (hre : readErr off = false) :
    (weakHit off = false →
      scanWorkerLoop bs R endOff readErr weakHit strongHit (fuel + 1) off =
        scanWorkerLoop bs R endOff readErr weakHit strongHit fuel (off + 1)) ∧
    (weakHit off = true → strongHit off = none →
      scanWorkerLoop bs R endOff readErr weakHit strongHit (fuel + 1) off =
        scanWorkerLoop bs R endOff readErr weakHit strongHit fuel (off + 1)) ∧
    (∀ ms, weakHit off = true → strongHit off = some ms →
      scanWorkerLoop bs R endOff readErr weakHit strongHit (fuel + 1) off =
        createChunks bs R ms off ++
          scanWorkerLoop bs R endOff readErr weakHit strongHit fuel (off + bs) ∧
      (createChunks bs R ms off).length = ms.length ∧
      (∀ c ∈ createChunks bs R ms off, c.sourceOffset = off)) := by
  refine ⟨?_, ?_, ?_⟩
  · intro hw
    simp [scanWorkerLoop, hlt, hre, hw]
  · intro hw hs
    simp [scanWorkerLoop, hlt, hre, hw, hs]
  · intro ms hw hs
    refine ⟨by simp [scanWorkerLoop, hlt, hre, hw, hs], by simp [createChunks], ?_⟩
    intro c hc
    simp only [createChunks, List.mem_map] at hc
    obtain ⟨m, -, rfl⟩ := hc
    split <;> rfl

/-- C4 witness: a strong hit at offset 0 emits the matched block's chunk
and advances the loop by the block size 4 (from offset 0 to offset 4). -/
theorem scanWorkerLoop_step_witness :
    scanWorkerLoop 4 100 5 (fun _ => false) (fun o => decide (o = 0))
        (fun o => if o = 0 then some [⟨2⟩] else none) 4 0 =
      createChunks 4 100 [⟨2⟩] 0 ++
        scanWorkerLoop 4 100 5 (fun _ => false) (fun o => decide (o = 0))
          (fun o => if o = 0 then some [⟨2⟩] else none) 3 4 :=
  ((scanWorkerLoop_step 4 100 5 (fun _ => false) (fun o => decide (o = 0))
      (fun o => if o = 0 then some [⟨2⟩] else none) 3 0
      (by decide) rfl).2.2 [⟨2⟩] (by decide) (by decide)).1

/-! ## Equivalence of `OptimizeChunks` with the spec's merge pass -/

/-- Sorted ascending by `SourceOffset` (the shape of `OptimizeChunks`
input in `Sync`, where the missing chunks come out target-ordered with
`SourceOffset = TargetOffset`). -/
def SortedBySrc (l : List ChunkInfo) : Prop :=
  l.Pairwise (fun a b => a.sourceOffset ≤ b.sourceOffset)

theorem optInner_no_merge (g e : Int) (l : List ChunkInfo)
    (h : ∀ c ∈ l, e + g ≤ c.sourceOffset) :
    optInner g e (l.map (fun c => (c, false))) = (e, l.map (fun c => (c, false))) := by
  induction l with
  | nil => rfl
  | cons c rest ih =>
      have hc : e + g ≤ c.sourceOffset := h c (List.mem_cons_self c rest)
      simp only [List.map_cons, optInner, Bool.false_eq_true, if_false]
      rw [if_neg (by omega), ih (fun d hd => h d (List.mem_cons_of_mem c hd))]

theorem optInner_sorted (g : Int) (l : List ChunkInfo) (e : Int) (hs : SortedBySrc l) :
    ∃ pre : List ChunkInfo,
      l = pre ++ (specMergeRun g e l).2 ∧
      optInner g e (l.map (fun c => (c, false))) =
        ((specMergeRun g e l).1,
          pre.map (fun c => (c, true)) ++
            (specMergeRun g e l).2.map (fun c => (c, false))) := by
  induction l generalizing e with
  | nil => exact ⟨[], rfl, rfl⟩
  | cons c rest ih =>
      by_cases hcond : c.sourceOffset - e < g
      · obtain ⟨pre, hpre, hopt⟩ := ih (c.sourceOffset + c.size) hs.of_cons
        refine ⟨c :: pre, ?_, ?_⟩
        · simp only [specMergeRun, if_pos hcond]
          rw [List.cons_append, ← hpre]
        · simp only [List.map_cons, optInner, Bool.false_eq_true, if_false,
            specMergeRun, if_pos hcond]
          rw [if_pos (by omega), hopt]
          rfl
      · have hstop : ∀ d ∈ rest, e + g ≤ d.sourceOffset := by
          intro d hd
          have h1 : c.sourceOffset ≤ d.sourceOffset := (List.pairwise_cons.mp hs).1 d hd
          omega
        refine ⟨[], ?_, ?_⟩
        · simp only [specMergeRun, if_neg hcond]
          rfl
        · simp only [List.map_cons, optInner, Bool.false_eq_true, if_false,
            specMergeRun, if_neg hcond]
          rw [if_neg (by omega), optInner_no_merge g e rest hstop]
          rfl

theorem optOuter_skip (g : Int) (pre : List ChunkInfo) (rest : List (ChunkInfo × Bool)) :
    optOuter g (pre.map (fun c => (c, true)) ++ rest) = optOuter g rest := by
  induction pre with
  | nil => rfl
  | cons c p ih =>
      simp only [List.map_cons, List.cons_append]
      rw [show optOuter g ((c, true) :: (p.map (fun c => (c, true)) ++ rest)) =
        optOuter g (p.map (fun c => (c, true)) ++ rest) from by simp [optOuter]]
      exact ih

theorem optInner_cons_self (g : Int) (c : ChunkInfo) (L : List (ChunkInfo × Bool)) :
    (optInner g (c.sourceOffset + c.size) ((c, false) :: L)).1 =
      (optInner g (c.sourceOffset + c.size) L).1 ∧
    (optInner g (c.sourceOffset + c.size) ((c, false) :: L)).2.tail =
      (optInner g (c.sourceOffset + c.size) L).2 := by
  simp only [optInner, Bool.false_eq_true, if_false]
  split <;> simp

/-- For sorted input, the Go skip-list algorithm computes exactly the
spec's merge pass. -/
theorem OptimizeChunks_eq_spec (g : Int) :
    ∀ (n : ℕ) (l : List ChunkInfo), l.length ≤ n →
      SortedBySrc l → OptimizeChunks l g = specMergePass g l := by
  intro n
  induction n with
  | zero =>
      intro l hl _
      have hnil : l = [] := List.eq_nil_of_length_eq_zero (Nat.le_zero.mp hl)
      subst hnil
      simp [OptimizeChunks, optOuter, specMergePass]
  | succ n ih =>
      intro l hl hs
      cases l with
      | nil => simp [OptimizeChunks, optOuter, specMergePass]
      | cons c rest =>
          obtain ⟨pre, hpre, hopt⟩ := optInner_sorted g rest (c.sourceOffset + c.size) hs.of_cons
          have hsuf : SortedBySrc (specMergeRun g (c.sourceOffset + c.size) rest).2 :=
            (List.pairwise_append.mp (hpre ▸ hs.of_cons)).2.1
          have hlen : (specMergeRun g (c.sourceOffset + c.size) rest).2.length ≤ n := by
            have h1 := congrArg List.length hpre
            rw [List.length_append] at h1
            simp only [List.length_cons] at hl
            omega
          show optOuter g ((c, false) :: rest.map (fun c => (c, false))) = _
          rw [show optOuter g ((c, false) :: rest.map (fun c => (c, false))) =
              { c with size :=
                  (optInner g (c.sourceOffset + c.size)
                    ((c, false) :: rest.map (fun c => (c, false)))).1 - c.sourceOffset } ::
                optOuter g (optInner g (c.sourceOffset + c.size)
                    ((c, false) :: rest.map (fun c => (c, false)))).2.tail from by
            simp [optOuter]]
          rw [(optInner_cons_self g c (rest.map (fun c => (c, false)))).1,
            (optInner_cons_self g c (rest.map (fun c => (c, false)))).2, hopt]
          show _ :: optOuter g _ = _
          rw [optOuter_skip]
          have hrec : optOuter g ((specMergeRun g (c.sourceOffset + c.size) rest).2.map
              (fun c => (c, false))) =
              specMergePass g (specMergeRun g (c.sourceOffset + c.size) rest).2 :=
            ih _ hlen hsuf
          rw [hrec]
          simp only [specMergePass]

theorem specMergeRun_stop (g : Int) (l : List ChunkInfo) :
    ∀ (e : Int) (d : ChunkInfo) (t : List ChunkInfo),
      (specMergeRun g e l).2 = d :: t → (specMergeRun g e l).1 + g ≤ d.sourceOffset := by
  induction l with
  | nil =>
      intro e d t h
      simp [specMergeRun] at h
  | cons c rest ih =>
      intro e d t h
      by_cases hc : c.sourceOffset - e < g
      · simp only [specMergeRun, if_pos hc] at h ⊢
        exact ih _ _ _ h
      · simp only [specMergeRun, if_neg hc] at h ⊢
        obtain ⟨rfl, -⟩ := List.cons.injEq .. ▸ h
        omega

theorem specMergeRun_suffix (g : Int) (l : List ChunkInfo) :
    ∀ e : Int, (specMergeRun g e l).2 <:+ l := by
  induction l with
  | nil => intro e; exact List.nil_suffix
  | cons c rest ih =>
      intro e
      by_cases hc : c.sourceOffset - e < g
      · simp only [specMergeRun, if_pos hc]
        exact (ih _).trans (List.suffix_cons c rest)
      · simp only [specMergeRun, if_neg hc]
        exact List.suffix_refl _

theorem specMergePass_mem (g : Int) :
    ∀ (n : ℕ) (l : List ChunkInfo), l.length ≤ n →
      ∀ d ∈ specMergePass g l,
        ∃ c ∈ l, d.sourceOffset = c.sourceOffset ∧ d.targetOffset = c.targetOffset := by
  intro n
  induction n with
  | zero =>
      intro l hl d hd
      have hnil : l = [] := List.eq_nil_of_length_eq_zero (Nat.le_zero.mp hl)
      subst hnil
      simp [specMergePass] at hd
  | succ n ih =>
      intro l hl d hd
      cases l with
      | nil => simp [specMergePass] at hd
      | cons c rest =>
          simp only [specMergePass] at hd
          rcases List.mem_cons.mp hd with h | h
          · exact ⟨c, List.mem_cons_self c rest, by rw [h], by rw [h]⟩
          · have hsuffix := specMergeRun_suffix g rest (c.sourceOffset + c.size)
            have hlen : (specMergeRun g (c.sourceOffset + c.size) rest).2.length ≤ n := by
              have := hsuffix.length_le
              simp only [List.length_cons] at hl
              omega
            obtain ⟨c2, hc2, h1, h2⟩ := ih _ hlen d h
            exact ⟨c2, List.mem_cons_of_mem c (hsuffix.subset hc2), h1, h2⟩

theorem specMergePass_sorted (g : Int) :
    ∀ (n : ℕ) (l : List ChunkInfo), l.length ≤ n →
      SortedBySrc l → SortedBySrc (specMergePass g l) := by
  intro n
  induction n with
  | zero =>
      intro l hl _
      have hnil : l = [] := List.eq_nil_of_length_eq_zero (Nat.le_zero.mp hl)
      subst hnil
      simp only [specMergePass]
      exact List.Pairwise.nil
  | succ n ih =>
      intro l hl hs
      cases l with
      | nil =>
          simp only [specMergePass]
          exact List.Pairwise.nil
      | cons c rest =>
          simp only [specMergePass]
          have hsuffix := specMergeRun_suffix g rest (c.sourceOffset + c.size)
          have hlen : (specMergeRun g (c.sourceOffset + c.size) rest).2.length ≤ n := by
            have := hsuffix.length_le
            simp only [List.length_cons] at hl
            omega
          have hsorted2 : SortedBySrc (specMergeRun g (c.sourceOffset + c.size) rest).2 :=
            (List.pairwise_cons.mp hs).2.sublist hsuffix.sublist
          refine List.pairwise_cons.mpr ⟨?_, ih _ hlen hsorted2⟩
          intro d hd
          obtain ⟨c2, hc2, h1, -⟩ := specMergePass_mem g _ _ le_rfl d hd
          have : c.sourceOffset ≤ c2.sourceOffset :=
            (List.pairwise_cons.mp hs).1 c2 (hsuffix.subset hc2)
          simpa [h1] using this

theorem specMergePass_gap (g : Int) :
    ∀ (n : ℕ) (l : List ChunkInfo), l.length ≤ n →
      List.Chain' (fun a b => a.sourceOffset + a.size + g ≤ b.sourceOffset)
        (specMergePass g l) := by
  intro n
  induction n with
  | zero =>
      intro l hl
      have hnil : l = [] := List.eq_nil_of_length_eq_zero (Nat.le_zero.mp hl)
      subst hnil
      simp [specMergePass]
  | succ n ih =>
      intro l hl
      cases l with
      | nil => simp [specMergePass]
      | cons c rest =>
          simp only [specMergePass]
          have hsuffix := specMergeRun_suffix g rest (c.sourceOffset + c.size)
          have hlen : (specMergeRun g (c.sourceOffset + c.size) rest).2.length ≤ n := by
            have := hsuffix.length_le
            simp only [List.length_cons] at hl
            omega
          refine List.chain'_cons'.mpr ⟨?_, ih _ hlen⟩
          intro y hy
          rcases hsuf : (specMergeRun g (c.sourceOffset + c.size) rest).2 with _ | ⟨d, t⟩
          · rw [hsuf] at hy
            simp [specMergePass] at hy
          · rw [hsuf] at hy
            simp only [specMergePass, List.head?_cons, Option.mem_def, Option.some.injEq] at hy
            have hstop := specMergeRun_stop g rest (c.sourceOffset + c.size) d t hsuf
            have hy2 : y.sourceOffset = d.sourceOffset := by rw [← hy]
            simp only [hy2]
            omega

theorem specMergePass_of_chain (g : Int) (l : List ChunkInfo)
    (h : List.Chain' (fun a b => a.sourceOffset + a.size + g ≤ b.sourceOffset) l) :
    specMergePass g l = l := by
  induction l with
  | nil => simp [specMergePass]
  | cons c rest ih =>
      cases rest with
      | nil =>
          simp only [specMergePass, specMergeRun, add_sub_cancel_left]
      | cons d t =>
          have hcd : c.sourceOffset + c.size + g ≤ d.sourceOffset := (List.chain'_cons.mp h).1
          simp only [specMergePass, specMergeRun]
          rw [if_neg (by omega)]
          rw [show specMergePass g ((c.sourceOffset + c.size, d :: t) : Int × List ChunkInfo).2 =
            d :: t from ih (List.chain'_cons.mp h).2]
          simp [add_sub_cancel_left]

/-- C2: on a list sorted ascending by `SourceOffset` (with `SourceOffset
= TargetOffset`, as produced by `GetMissingChunks`) and `minGap ≥ 0`,
`OptimizeChunks` computes exactly the spec's merge pass (`specMergePass`
merges a later chunk into the current one precisely when the later
chunk's begin minus the current — possibly already extended — chunk's
end is less than `minGap`, extending the current end to the later
chunk's end and dropping it); consequently adjacent output chunks are
separated by at least `minGap` bytes, and every output chunk still has
`SourceOffset = TargetOffset`. -/
theorem OptimizeChunks_spec (chunkList : List ChunkInfo) (minGap : Int)
    (hs : SortedBySrc chunkList)
    (hst : ∀ c ∈ chunkList, c.sourceOffset = c.targetOffset)
    (_hg : 0 ≤ minGap) :
    OptimizeChunks chunkList minGap = specMergePass minGap chunkList ∧
    List.Chain' (fun a b => a.sourceOffset + a.size + minGap ≤ b.sourceOffset)
      (OptimizeChunks chunkList minGap) ∧
    (∀ d ∈ OptimizeChunks chunkList minGap, d.sourceOffset = d.targetOffset) := by
  have he := OptimizeChunks_eq_spec minGap chunkList.length chunkList le_rfl hs
  refine ⟨he, ?_, ?_⟩
  · rw [he]
    exact specMergePass_gap minGap chunkList.length chunkList le_rfl
  · rw [he]
    intro d hd
    obtain ⟨c, hc, h1, h2⟩ := specMergePass_mem minGap chunkList.length chunkList le_rfl d hd
    rw [h1, h2]
    exact hst c hc

/-- C2 witness: two fetch chunks `[0,10)` and `[40,45)` with
`minGap = 64` are merged (gap `30 < 64`) into a single chunk. -/
theorem OptimizeChunks_spec_witness :
    OptimizeChunks [⟨10, 0, 0⟩, ⟨5, 40, 40⟩] 64 =
      specMergePass 64 [⟨10, 0, 0⟩, ⟨5, 40, 40⟩] ∧
    List.Chain' (fun a b => a.sourceOffset + a.size + 64 ≤ b.sourceOffset)
      (OptimizeChunks [⟨10, 0, 0⟩, ⟨5, 40, 40⟩] 64) ∧
    (∀ d ∈ OptimizeChunks [⟨10, 0, 0⟩, ⟨5, 40, 40⟩] 64,
      d.sourceOffset = d.targetOffset) :=
  OptimizeChunks_spec [⟨10, 0, 0⟩, ⟨5, 40, 40⟩] 64 (by unfold SortedBySrc; decide)
    (by decide) (by decide)

/-- C10: `OptimizeChunks` is idempotent on lists sorted ascending by
`SourceOffset` with `minGap ≥ 0`: applying it to its own output returns
the output unchanged. -/
theorem OptimizeChunks_idem (l : List ChunkInfo) (minGap : Int)
    (hs : SortedBySrc l) (_hg : 0 ≤ minGap) :
    OptimizeChunks (OptimizeChunks l minGap) minGap = OptimizeChunks l minGap := by
  have he := OptimizeChunks_eq_spec minGap l.length l le_rfl hs
  have hsorted := specMergePass_sorted minGap l.length l le_rfl hs
  have hchain := specMergePass_gap minGap l.length l le_rfl
  rw [he, OptimizeChunks_eq_spec minGap (specMergePass minGap l).length _ le_rfl hsorted,
    specMergePass_of_chain minGap _ hchain]

/-- C10 witness: idempotence at a concrete sorted two-chunk list. -/
theorem OptimizeChunks_idem_witness :
    OptimizeChunks (OptimizeChunks [⟨10, 0, 0⟩, ⟨5, 40, 40⟩] 64) 64 =
      OptimizeChunks [⟨10, 0, 0⟩, ⟨5, 40, 40⟩] 64 :=
  OptimizeChunks_idem [⟨10, 0, 0⟩, ⟨5, 40, 40⟩] 64 (by unfold SortedBySrc; decide) (by decide)

/-! ## The plan produced by `GetMappedChunks` and `GetMissingChunks` -/

/-- Disjointness of the target intervals `[TargetOffset, TargetOffset +
Size)` of two chunks. -/
def DisjointChunks (a b : ChunkInfo) : Prop :=
  a.targetOffset + a.size ≤ b.targetOffset ∨ b.targetOffset + b.size ≤ a.targetOffset

instance (a b : ChunkInfo) : Decidable (DisjointChunks a b) := by
  unfold DisjointChunks
  infer_instance

/-- Sorted ascending by `TargetOffset`. -/
def SortedByTgt (l : List ChunkInfo) : Prop :=
  l.Pairwise (fun a b => a.targetOffset ≤ b.targetOffset)

theorem insertByTarget_perm (c : ChunkInfo) (l : List ChunkInfo) :
    (insertByTarget c l).Perm (c :: l) := by
  induction l with
  | nil => exact List.Perm.refl _
  | cons d t ih =>
      simp only [insertByTarget]
      split
      · exact List.Perm.refl _
      · exact (ih.cons d).trans (List.Perm.swap c d t)

theorem sortByTarget_perm (l : List ChunkInfo) : (sortByTarget l).Perm l := by
  induction l with
  | nil => exact List.Perm.refl _
  | cons c t ih => exact (insertByTarget_perm c (sortByTarget t)).trans (ih.cons c)

theorem insertByTarget_sorted (c : ChunkInfo) (l : List ChunkInfo) (h : SortedByTgt l) :
    SortedByTgt (insertByTarget c l) := by
  induction l with
  | nil =>
      simp only [insertByTarget, SortedByTgt]
      exact List.pairwise_singleton _ _
  | cons d t ih =>
      simp only [insertByTarget]
      split
      next hle =>
        refine List.pairwise_cons.mpr ⟨?_, h⟩
        intro b hb
        rcases List.mem_cons.mp hb with rfl | hb
        · exact hle
        · exact le_trans hle ((List.pairwise_cons.mp h).1 b hb)
      next hgt =>
        refine List.pairwise_cons.mpr ⟨?_, ih (List.pairwise_cons.mp h).2⟩
        intro b hb
        rcases List.mem_cons.mp ((insertByTarget_perm c t).subset hb) with rfl | hb2
        · exact le_of_not_le hgt
        · exact (List.pairwise_cons.mp h).1 b hb2

theorem sortByTarget_sorted (l : List ChunkInfo) : SortedByTgt (sortByTarget l) := by
  induction l with
  | nil => exact List.Pairwise.nil
  | cons c t ih => exact insertByTarget_sorted c _ ih

/-- The mapper obtained by `Add`ing each chunk of `cs` in order to a
fresh `NewFileChunksMapper R` (the loop in `Sync` / `FillChunksMap`). -/
def mapperOf (R : Int) (cs : List ChunkInfo) : ChunksMapper :=
  cs.foldl ChunksMapper.Add (NewFileChunksMapper R)

theorem foldl_Add_fileSize (cs : List ChunkInfo) :
    ∀ m : ChunksMapper, (cs.foldl ChunksMapper.Add m).fileSize = m.fileSize := by
  induction cs with
  | nil => intro m; rfl
  | cons c t ih =>
      intro m
      rw [List.foldl_cons, ih]
      rfl

theorem mapperOf_fileSize (R : Int) (cs : List ChunkInfo) : (mapperOf R cs).fileSize = R :=
  foldl_Add_fileSize cs _

theorem foldl_Add_perm (cs : List ChunkInfo) :
    ∀ m : ChunksMapper,
      List.Pairwise (fun a b => a.targetOffset ≠ b.targetOffset) cs →
      (∀ c ∈ cs, ∀ d ∈ m.chunksMap, d.targetOffset ≠ c.targetOffset) →
      ((cs.foldl ChunksMapper.Add m).chunksMap).Perm (cs ++ m.chunksMap) := by
  induction cs with
  | nil => intro m _ _; simp
  | cons c t ih =>
      intro m hp hm
      rw [List.foldl_cons]
      have hAdd : (ChunksMapper.Add m c).chunksMap = c :: m.chunksMap := by
        simp only [ChunksMapper.Add]
        rw [List.filter_eq_self.mpr]
        intro a ha
        simpa using hm c (List.mem_cons_self c t) a ha
      have hnext : ∀ c2 ∈ t, ∀ d ∈ (ChunksMapper.Add m c).chunksMap,
          d.targetOffset ≠ c2.targetOffset := by
        intro c2 hc2 d hd
        rw [hAdd] at hd
        rcases List.mem_cons.mp hd with rfl | hd
        · exact (List.pairwise_cons.mp hp).1 c2 hc2
        · exact hm c2 (List.mem_cons_of_mem c hc2) d hd
      have ih2 := ih (ChunksMapper.Add m c) (List.pairwise_cons.mp hp).2 hnext
      rw [hAdd] at ih2
      exact ih2.trans List.perm_middle

theorem missingAux_src_eq_tgt (R : Int) :
    ∀ (l : List ChunkInfo) (pastEnd : Int), ∀ m ∈ missingAux R pastEnd l,
      m.sourceOffset = m.targetOffset := by
  intro l
  induction l with
  | nil =>
      intro pastEnd m hm
      simp only [missingAux] at hm
      split at hm
      · obtain rfl := List.mem_singleton.mp hm
        rfl
      · cases hm
  | cons c t ih =>
      intro pastEnd m hm
      simp only [missingAux] at hm
      split at hm
      · rcases List.mem_cons.mp hm with rfl | hm
        · rfl
        · exact ih _ m hm
      · exact ih _ m hm

theorem missingAux_tgt_ge (R : Int) :
    ∀ (l : List ChunkInfo) (pastEnd : Int),
      List.Pairwise (fun a b => a.targetOffset + a.size ≤ b.targetOffset) l →
      (∀ c ∈ l, pastEnd ≤ c.targetOffset ∧ 0 < c.size) →
      ∀ m ∈ missingAux R pastEnd l, pastEnd ≤ m.targetOffset := by
  intro l
  induction l with
  | nil =>
      intro pastEnd _ _ m hm
      simp only [missingAux] at hm
      split at hm
      · obtain rfl := List.mem_singleton.mp hm
        exact le_refl _
      · cases hm
  | cons c t ih =>
      intro pastEnd hp hall m hm
      have hc := hall c (List.mem_cons_self c t)
      have hstep : ∀ d ∈ t, c.targetOffset + c.size ≤ d.targetOffset ∧ 0 < d.size := by
        intro d hd
        exact ⟨(List.pairwise_cons.mp hp).1 d hd, (hall d (List.mem_cons_of_mem c hd)).2⟩
      simp only [missingAux] at hm
      split at hm
      · rcases List.mem_cons.mp hm with rfl | hm
        · exact le_refl _
        · have hge := ih (c.targetOffset + c.size) (List.pairwise_cons.mp hp).2 hstep m hm
          omega
      · have hge := ih (c.targetOffset + c.size) (List.pairwise_cons.mp hp).2 hstep m hm
        omega

theorem mergeByTarget_nil_right (l : List ChunkInfo) : mergeByTarget l [] = l := by
  cases l <;> simp [mergeByTarget]

theorem mergeByTarget_cons_left (c : ChunkInfo) (L ys : List ChunkInfo)
    (h : ∀ y ∈ ys, c.targetOffset ≤ y.targetOffset) :
    mergeByTarget (c :: L) ys = c :: mergeByTarget L ys := by
  cases ys with
  | nil => rw [mergeByTarget_nil_right, mergeByTarget_nil_right]
  | cons y t =>
      have hy := h y (List.mem_cons_self y t)
      simp only [mergeByTarget]
      rw [if_pos hy]

/-- The chunks of `l` tile `[acc, R)` exactly: each chunk starts where
the previous one ended, all sizes are positive, and the last chunk ends
at `R`. -/
def planChain (R : Int) : Int → List ChunkInfo → Prop
  | acc, [] => acc = R
  | acc, c :: l => c.targetOffset = acc ∧ 0 < c.size ∧ planChain R (acc + c.size) l

theorem mergePlan_chain (R : Int) :
    ∀ (L : List ChunkInfo) (acc : Int),
      List.Pairwise (fun a b => a.targetOffset + a.size ≤ b.targetOffset) L →
      (∀ c ∈ L, acc ≤ c.targetOffset ∧ c.targetOffset + c.size ≤ R ∧ 0 < c.size) →
      acc ≤ R →
      planChain R acc (mergeByTarget L (missingAux R acc L)) := by
  intro L
  induction L with
  | nil =>
      intro acc _ _ haccR
      simp only [missingAux, mergeByTarget]
      by_cases hacc : acc = R
      · rw [if_neg (by omega)]
        simp only [planChain]
        exact hacc
      · rw [if_pos hacc]
        refine ⟨rfl, show (0 : Int) < R - acc from by omega, ?_⟩
        show planChain R (acc + (R - acc)) []
        simp only [planChain]
        omega
  | cons c L2 ih =>
      intro acc hp hall haccR
      have hc := hall c (List.mem_cons_self c L2)
      have htail : ∀ d ∈ L2, c.targetOffset + c.size ≤ d.targetOffset ∧
          d.targetOffset + d.size ≤ R ∧ 0 < d.size := by
        intro d hd
        exact ⟨(List.pairwise_cons.mp hp).1 d hd,
          (hall d (List.mem_cons_of_mem c hd)).2.1,
          (hall d (List.mem_cons_of_mem c hd)).2.2⟩
      have hkey : planChain R c.targetOffset
          (mergeByTarget (c :: L2) (missingAux R (c.targetOffset + c.size) L2)) := by
        have hge : ∀ y ∈ missingAux R (c.targetOffset + c.size) L2,
            c.targetOffset ≤ y.targetOffset := by
          intro y hy
          have hge2 := missingAux_tgt_ge R L2 (c.targetOffset + c.size)
            (List.pairwise_cons.mp hp).2
            (fun d hd => ⟨(htail d hd).1, (htail d hd).2.2⟩) y hy
          omega
        rw [mergeByTarget_cons_left c L2 _ hge]
        refine ⟨rfl, hc.2.2, ?_⟩
        exact ih (c.targetOffset + c.size) (List.pairwise_cons.mp hp).2 htail hc.2.1
      by_cases hacc : acc = c.targetOffset
      · subst hacc
        simp only [missingAux]
        rw [if_neg (by omega)]
        exact hkey
      · have hlt : acc < c.targetOffset := lt_of_le_of_ne hc.1 hacc
        simp only [missingAux]
        rw [if_pos hacc]
        rw [show mergeByTarget (c :: L2)
            ({ size := c.targetOffset - acc, sourceOffset := acc, targetOffset := acc } ::
              missingAux R (c.targetOffset + c.size) L2) =
            { size := c.targetOffset - acc, sourceOffset := acc, targetOffset := acc } ::
              mergeByTarget (c :: L2) (missingAux R (c.targetOffset + c.size) L2) from by
          simp only [mergeByTarget]
          rw [if_neg (show ¬(c.targetOffset ≤ acc) from by omega)]]
        refine ⟨rfl, show (0 : Int) < c.targetOffset - acc from by omega, ?_⟩
        show planChain R (acc + (c.targetOffset - acc))
          (mergeByTarget (c :: L2) (missingAux R (c.targetOffset + c.size) L2))
        rw [show acc + (c.targetOffset - acc) = c.targetOffset from by omega]
        exact hkey

theorem planChain_bounds (R : Int) :
    ∀ (L : List ChunkInfo) (acc : Int), planChain R acc L →
      acc ≤ R ∧ ∀ c ∈ L, acc ≤ c.targetOffset ∧ 0 < c.size ∧
        c.targetOffset + c.size ≤ R := by
  intro L
  induction L with
  | nil =>
      intro acc h
      simp only [planChain] at h
      exact ⟨le_of_eq h, fun c hc => absurd hc (List.not_mem_nil c)⟩
  | cons c t ih =>
      intro acc h
      obtain ⟨h1, h2, h3⟩ := h
      obtain ⟨hR, hall⟩ := ih (acc + c.size) h3
      refine ⟨by omega, ?_⟩
      intro d hd
      rcases List.mem_cons.mp hd with rfl | hd
      · exact ⟨by omega, h2, by omega⟩
      · obtain ⟨ha, hb, hc2⟩ := hall d hd
        exact ⟨by omega, hb, hc2⟩

theorem planChain_pairwise (R : Int) :
    ∀ (L : List ChunkInfo) (acc : Int), planChain R acc L →
      List.Pairwise (fun a b => a.targetOffset + a.size ≤ b.targetOffset) L := by
  intro L
  induction L with
  | nil => intro acc _; exact List.Pairwise.nil
  | cons c t ih =>
      intro acc h
      obtain ⟨h1, h2, h3⟩ := h
      refine List.pairwise_cons.mpr ⟨?_, ih _ h3⟩
      intro d hd
      have hb := (planChain_bounds R t (acc + c.size) h3).2 d hd
      omega

theorem planChain_union (R : Int) :
    ∀ (L : List ChunkInfo) (acc : Int), planChain R acc L →
      ∀ x : Int, (∃ c ∈ L, c.targetOffset ≤ x ∧ x < c.targetOffset + c.size) ↔
        acc ≤ x ∧ x < R := by
  intro L
  induction L with
  | nil =>
      intro acc h x
      simp only [planChain] at h
      subst h
      constructor
      · rintro ⟨c, hc, -, -⟩
        cases hc
      · intro hx
        omega
  | cons c t ih =>
      intro acc h x
      obtain ⟨h1, h2, h3⟩ := h
      have hiff := ih (acc + c.size) h3 x
      constructor
      · rintro ⟨d, hd, hx1, hx2⟩
        rcases List.mem_cons.mp hd with rfl | hd
        · have hR := (planChain_bounds R t _ h3).1
          exact ⟨by omega, by omega⟩
        · obtain ⟨ha, hb⟩ := hiff.mp ⟨d, hd, hx1, hx2⟩
          exact ⟨by omega, hb⟩
      · intro hx
        by_cases hcase : x < acc + c.size
        · exact ⟨c, List.mem_cons_self c t, by omega, by omega⟩
        · obtain ⟨d, hd, hx1, hx2⟩ := hiff.mpr ⟨by omega, hx.2⟩
          exact ⟨d, List.mem_cons_of_mem c hd, hx1, hx2⟩

/-- C1: building a `ChunksMapper` for a remote size `R ≥ 0` from reuse
chunks whose target intervals are pairwise disjoint, of positive size,
and inside `[0, R)`, the merge of `GetMappedChunks` and
`GetMissingChunks` by target offset is strictly sorted by target
offset, pairwise disjoint, has only positive-size chunks, and its
target intervals cover exactly `[0, R)`; every missing chunk has
`SourceOffset = TargetOffset`. -/
theorem chunksMapper_plan_spec (R : Int) (cs : List ChunkInfo)
    (hR : 0 ≤ R)
    (hdisj : List.Pairwise DisjointChunks cs)
    (hpos : ∀ c ∈ cs, 0 < c.size)
    (hin : ∀ c ∈ cs, 0 ≤ c.targetOffset ∧ c.targetOffset + c.size ≤ R) :
    List.Pairwise (fun a b => a.targetOffset < b.targetOffset)
      (mergeByTarget (mapperOf R cs).GetMappedChunks (mapperOf R cs).GetMissingChunks) ∧
    List.Pairwise DisjointChunks
      (mergeByTarget (mapperOf R cs).GetMappedChunks (mapperOf R cs).GetMissingChunks) ∧
    (∀ c ∈ mergeByTarget (mapperOf R cs).GetMappedChunks (mapperOf R cs).GetMissingChunks,
      0 < c.size) ∧
    (∀ x : Int,
      (∃ c ∈ mergeByTarget (mapperOf R cs).GetMappedChunks (mapperOf R cs).GetMissingChunks,
        c.targetOffset ≤ x ∧ x < c.targetOffset + c.size) ↔ 0 ≤ x ∧ x < R) ∧
    (∀ c ∈ (mapperOf R cs).GetMissingChunks, c.sourceOffset = c.targetOffset) := by
  have hne : List.Pairwise (fun a b => a.targetOffset ≠ b.targetOffset) cs := by
    refine hdisj.imp_of_mem ?_
    intro a b ha hb hab heq
    have h1 := hpos a ha
    have h2 := hpos b hb
    rcases hab with h | h <;> omega
  have hperm : ((mapperOf R cs).chunksMap).Perm cs := by
    have h := foldl_Add_perm cs (NewFileChunksMapper R) hne
      (fun c _ d hd => absurd hd (List.not_mem_nil d))
    simpa [NewFileChunksMapper] using h
  have hmp : ((mapperOf R cs).GetMappedChunks).Perm cs :=
    (sortByTarget_perm (mapperOf R cs).chunksMap).trans hperm
  have hsub : ∀ c ∈ (mapperOf R cs).GetMappedChunks, c ∈ cs := fun c hc => hmp.subset hc
  have hdisjm : List.Pairwise DisjointChunks (mapperOf R cs).GetMappedChunks :=
    (hmp.pairwise_iff (fun h => Or.symm h)).mpr hdisj
  have hsorted : SortedByTgt (mapperOf R cs).GetMappedChunks :=
    sortByTarget_sorted (mapperOf R cs).chunksMap
  have hchain : List.Pairwise (fun a b => a.targetOffset + a.size ≤ b.targetOffset)
      (mapperOf R cs).GetMappedChunks := by
    refine (hsorted.and hdisjm).imp_of_mem ?_
    intro a b ha hb hab
    have hbpos : 0 < b.size := hpos b (hsub b hb)
    rcases hab.2 with h | h
    · exact h
    · exact absurd hab.1 (by omega)
  have hGetMissing : (mapperOf R cs).GetMissingChunks =
      missingAux R 0 (mapperOf R cs).GetMappedChunks := by
    simp only [ChunksMapper.GetMissingChunks, mapperOf_fileSize]
  have hplan : planChain R 0
      (mergeByTarget (mapperOf R cs).GetMappedChunks (mapperOf R cs).GetMissingChunks) := by
    rw [hGetMissing]
    exact mergePlan_chain R (mapperOf R cs).GetMappedChunks 0 hchain
      (fun c hc => ⟨(hin c (hsub c hc)).1, (hin c (hsub c hc)).2, hpos c (hsub c hc)⟩) hR
  have hB := planChain_bounds R _ 0 hplan
  have hPW := planChain_pairwise R _ 0 hplan
  refine ⟨?_, ?_, ?_, ?_, ?_⟩
  · refine hPW.imp_of_mem ?_
    intro a b ha hb hab
    have h1 := (hB.2 a ha).2.1
    omega
  · exact hPW.imp (fun h => Or.inl h)
  · exact fun c hc => (hB.2 c hc).2.1
  · exact planChain_union R _ 0 hplan
  · rw [hGetMissing]
    exact missingAux_src_eq_tgt R _ 0

/-- C1 witness: remote size 12 with two disjoint reuse chunks at target
offsets 6 and 1 (added in unsorted order). -/
theorem chunksMapper_plan_spec_witness :
    List.Pairwise (fun a b => a.targetOffset < b.targetOffset)
      (mergeByTarget (mapperOf 12 [⟨3, 5, 6⟩, ⟨2, 0, 1⟩]).GetMappedChunks
        (mapperOf 12 [⟨3, 5, 6⟩, ⟨2, 0, 1⟩]).GetMissingChunks) ∧
    List.Pairwise DisjointChunks
      (mergeByTarget (mapperOf 12 [⟨3, 5, 6⟩, ⟨2, 0, 1⟩]).GetMappedChunks
        (mapperOf 12 [⟨3, 5, 6⟩, ⟨2, 0, 1⟩]).GetMissingChunks) ∧
    (∀ c ∈ mergeByTarget (mapperOf 12 [⟨3, 5, 6⟩, ⟨2, 0, 1⟩]).GetMappedChunks
        (mapperOf 12 [⟨3, 5, 6⟩, ⟨2, 0, 1⟩]).GetMissingChunks, 0 < c.size) ∧
    (∀ x : Int,
      (∃ c ∈ mergeByTarget (mapperOf 12 [⟨3, 5, 6⟩, ⟨2, 0, 1⟩]).GetMappedChunks
        (mapperOf 12 [⟨3, 5, 6⟩, ⟨2, 0, 1⟩]).GetMissingChunks,
        c.targetOffset ≤ x ∧ x < c.targetOffset + c.size) ↔ 0 ≤ x ∧ x < 12) ∧
    (∀ c ∈ (mapperOf 12 [⟨3, 5, 6⟩, ⟨2, 0, 1⟩]).GetMissingChunks,
      c.sourceOffset = c.targetOffset) :=
  chunksMapper_plan_spec 12 [⟨3, 5, 6⟩, ⟨2, 0, 1⟩]
    (by decide) (by decide) (by decide) (by decide)

end ZsyncGo
